import Mathlib

/-!
# Search modal of the documentation site: query processing, two-stage search, category filter

Shallow embedding of `src/components/site/Search/SearchModal.js`.

Conventions of the embedding.

* A JavaScript string is a `List Char` (`Str`).  The operations used by the component
  (`length === 0`, `split(/\s/)`, `match(/[\^~+\-*:]/)`, `includes`, template literals)
  only look at characters of the Basic Multilingual Plane, so working with code points
  instead of UTF-16 code units does not change their outcome.
* `index.search` is a function from the query string to either a thrown error or the
  ordered list of hits; `store` is a partial map from references to stored metadata.
* The two `useEffect` bodies are the functions `search` (value handed to
  `setSearchResults`) and `categoryFilter` (value handed to `setDisplayedResults`).
-/

namespace SearchModal

/-- A JavaScript string, as its list of characters. -/
abbrev Str := List Char

/-! ## `processQuery` (lines 27-41) -/

/-- The regular expression `/\s/`: the characters matched by the class `\s` of ECMAScript
(white space and line terminators). -/
def isWhitespace (c : Char) : Bool :=
  let n := c.toNat
  n == 0x09 || n == 0x0A || n == 0x0B || n == 0x0C || n == 0x0D || n == 0x20 ||
  n == 0xA0 || n == 0x1680 || (0x2000 ≤ n && n ≤ 0x200A) || n == 0x2028 || n == 0x2029 ||
  n == 0x202F || n == 0x205F || n == 0x3000 || n == 0xFEFF

/-- The character class `[\^~+\-*:]` of line 31. -/
def isReserved (c : Char) : Bool :=
  c == '^' || c == '~' || c == '+' || c == '-' || c == '*' || c == ':'

/-- The call `query.split(/\s/)`: the string is cut at every single white-space character;
`k` separators give `k + 1` pieces, empty pieces included, and the empty string gives `[""]`. -/
def split : Str → List Str
  | [] => [[]]
  | c :: cs =>
    if isWhitespace c then [] :: split cs
    else
      match split cs with
      | [] => [[c]]
      | p :: ps => (c :: p) :: ps

/-- The call `query.match(/[\^~+\-*:]/) !== null`. -/
def matchesReserved (query : Str) : Bool := query.any isReserved

/-- The call `parts.join(' ')`. -/
def join (parts : List Str) : Str := [' '].intercalate parts

/-- The function `processQuery` of lines 27-41. -/
def processQuery (query : Str) : Str :=
  if query.length == 0 || decide ((split query).length < 2) || matchesReserved query then
    query
  else
    join (((split query).filter (fun t => decide (t.length > 0))).map (fun t => '+' :: t))

/-- A token that is being read ends here: the rest of the text is empty or starts with a
white-space character. -/
def atBoundary : Str → Bool
  | [] => true
  | d :: _ => isWhitespace d

/-- The non-empty white-space-separated tokens of a string, read off the text directly:
the maximal runs of characters that are not white space, from left to right. -/
def tokens : Str → List Str
  | [] => []
  | c :: cs =>
    if isWhitespace c then tokens cs
    else if atBoundary cs then [c] :: tokens cs
    else
      match tokens cs with
      | [] => [[c]]
      | t :: ts => (c :: t) :: ts

/-! ## `searchForQuery` (lines 43-51) and the search effect (lines 53-59) -/

/-- A JavaScript object with string-valued properties: its own enumerable properties, as
key/value pairs.  The stored metadata of a document is such an object. -/
abbrev Obj := List (Str × Str)

/-- A result of `index.search`; `ref` is the only property the component reads. -/
structure Hit where
  ref : Str
  deriving DecidableEq, Repr

/-- An element of `searchResults`: an object that has a `slug` property, and its remaining
properties. -/
structure ResultEntry where
  slug : Str
  fields : Obj
  deriving DecidableEq, Repr

/-- The capability `index.search`: it throws (`Except.error`) or returns the ranked hits. -/
abbrev Index := Str → Except Str (List Hit)

/-- The object `store`: `store[ref]` is `undefined` (`none`) or the stored metadata. -/
abbrev Store := Str → Option Obj

/-- The property name `slug`. -/
def slugKey : Str := ['s', 'l', 'u', 'g']

/-- The object literal `{ slug: result.ref, ...store[result.ref] }` of line 46.  Spreading
`undefined` adds nothing; the spread comes after `slug`, so a `slug` property of the stored
metadata replaces the value `result.ref`. -/
def mergeEntry (ref : Str) (stored : Option Obj) : ResultEntry :=
  match stored with
  | none => { slug := ref, fields := [] }
  | some m =>
    { slug := (m.lookup slugKey).getD ref
      fields := m.filter (fun kv => kv.1 != slugKey) }

/-- The body of the `try` block of lines 45-47: `index.search(query).map(...)`. -/
def searchForQueryTry (index : Index) (store : Store) (query : Str) :
    Except Str (List ResultEntry) :=
  match index query with
  | .error e => .error e
  | .ok hits => .ok (hits.map (fun result => mergeEntry result.ref (store result.ref)))

/-- The function `searchForQuery` of lines 43-51: the `catch` clause returns `[]`. -/
def searchForQuery (index : Index) (store : Store) (query : Str) : List ResultEntry :=
  match searchForQueryTry index store query with
  | .ok results => results
  | .error _ => []

/-- The effect of lines 53-59: the value passed to `setSearchResults` for the current
`query`.  The retry uses the template literal built from `query` itself. -/
def search (index : Index) (store : Store) (query : Str) : List ResultEntry :=
  let results := searchForQuery index store (processQuery query)
  if results.length == 0 then searchForQuery index store (query ++ ['*'])
  else results

/-! ## The category filter (lines 61-89) -/

/-- The constant `sectionNames` of lines 21-25, as `Object.entries(sectionNames)`. -/
def sectionNames : List (Str × Str) :=
  [("docs".toList, "main-docs".toList), ("tuts".toList, "tutorials".toList),
   ("ref".toList, "reference".toList)]

/-- The state `section` as `Object.entries(section)`; initially all three flags are false. -/
abbrev Section := List (Str × Bool)

/-- The state `section` with the keys of lines 15-19. -/
def mkSection (docs tuts ref : Bool) : Section :=
  [("docs".toList, docs), ("tuts".toList, tuts), ("ref".toList, ref)]

/-- The method `Array.prototype.indexOf`: the first position of `x`, or `-1`. -/
def indexOf (xs : List Str) (x : Str) : Int :=
  if x ∈ xs then (xs.indexOf x : Int) else -1

/-- The array `selectedSections` of lines 62-64: the keys whose flag is true. -/
def selectedSections (s : Section) : List Str :=
  (s.filter (fun kv => kv.2)).map (fun kv => kv.1)

/-- The array `selectedSectionNames` of lines 70-72, for a given table of section names. -/
def selectedSectionNames (names : List (Str × Str)) (selected : List Str) : List Str :=
  (names.filter (fun kv => decide (indexOf selected kv.1 ≥ 0))).map (fun kv => kv.2)

/-- The text `undefined`, which `String.prototype.includes` searches for when its argument
is `undefined`. -/
def undefinedText : Str := "undefined".toList

/-- The argument `selectedSectionNames[k]` as `includes` sees it: an index past the end of
the array reads `undefined`, which is converted to the string `undefined`. -/
def nameAt (names : List Str) (k : Nat) : Str := names.getD k undefinedText

/-- The method `String.prototype.includes`: `t` occurs in `s` as a contiguous substring. -/
def includes (s t : Str) : Bool := s.tails.any (fun u => t.isPrefixOf u)

/-- The function `filterResult` of lines 74-86, with `selectedSectionNames` as a parameter. -/
def filterResult (names : List Str) (i : ResultEntry) : Bool :=
  if includes i.slug (nameAt names 0) then true
  else if includes i.slug (nameAt names 1) then true
  else if includes i.slug (nameAt names 2) then true
  else false

/-- The effect of lines 61-89 for a given table of section names: the value passed to
`setDisplayedResults`. -/
def categoryFilterWith (names : List (Str × Str)) (s : Section)
    (searchResults : List ResultEntry) : List ResultEntry :=
  if (selectedSections s).length == 0 then searchResults
  else
    searchResults.filter
      (fun result => filterResult (selectedSectionNames names (selectedSections s)) result)

/-- The effect of lines 61-89 with the component's own `sectionNames`. -/
def categoryFilter (s : Section) (searchResults : List ResultEntry) : List ResultEntry :=
  categoryFilterWith sectionNames s searchResults

/-! ## Concrete indexes, stores and result lists used in the examples -/

/-- A store with the two documents of the scenarios. -/
def exampleStore : Store := fun ref =>
  if ref = "main-docs/intro".toList then some [("title".toList, "Introduction".toList)]
  else if ref = "tutorials/setup".toList then some [("title".toList, "Setup".toList)]
  else none

/-- An index with no hit for `+setup +guide` and one hit for `setup guide*`. -/
def fallbackIndex : Index := fun q =>
  if q = "setup guide*".toList then .ok [{ ref := "tutorials/setup".toList }]
  else .ok []

/-- An index with one hit for `+setup +guide` and another one for `setup guide*`. -/
def exactIndex : Index := fun q =>
  if q = "+setup +guide".toList then .ok [{ ref := "main-docs/intro".toList }]
  else if q = "setup guide*".toList then .ok [{ ref := "tutorials/setup".toList }]
  else .ok []

/-- An index without any hit. -/
def emptyIndex : Index := fun _ => .ok []

/-- An index whose `search` throws on every query. -/
def throwingIndex : Index := fun _ => .error "QueryParseError".toList

/-- An index whose `search` throws on `+setup +guide` and has one hit for `setup guide*`. -/
def strictThrowingIndex : Index := fun q =>
  if q = "+setup +guide".toList then .error "QueryParseError".toList
  else if q = "setup guide*".toList then .ok [{ ref := "tutorials/setup".toList }]
  else .ok []

/-- A store whose metadata for `docs/a` has a `slug` property of its own. -/
def slugStore : Store := fun ref =>
  if ref = "docs/a".toList then
    some [("title".toList, "A".toList), ("slug".toList, "docs/b".toList)]
  else none

/-- An index with the single hit `docs/a` for the query `a`. -/
def slugIndex : Index := fun q =>
  if q = "a".toList then .ok [{ ref := "docs/a".toList }] else .ok []

/-- A result from the main documentation. -/
def docsEntry : ResultEntry := { slug := "main-docs/intro".toList, fields := [] }

/-- A result from the tutorials. -/
def tutsEntry : ResultEntry := { slug := "tutorials/setup".toList, fields := [] }

/-- A result from the tutorials whose slug contains the text `undefined`. -/
def undefinedEntry : ResultEntry :=
  { slug := "tutorials/undefined-behaviour".toList, fields := [] }

/-! ## Reading a processed query back, and further examples -/

/-- Cutting a processed query at every single space character. -/
def splitOnSpace (s : Str) : List Str := s.splitOn ' '

/-- Removing the leading `+` of a piece of a processed query; a piece that does not start
with `+` cannot be read back. -/
def dropPlus : Str → Option Str
  | [] => none
  | c :: t => if c = '+' then some t else none

/-- Removing the leading `+` of every piece; it fails when some piece has none. -/
def dropAllPlus : List Str → Option (List Str)
  | [] => some []
  | p :: ps =>
    match dropPlus p, dropAllPlus ps with
    | some t, some ts => some (t :: ts)
    | _, _ => none

/-- Reading a processed query back: cut at the single spaces, drop the leading `+` of
every piece. -/
def parseBack (s : Str) : Option (List Str) := dropAllPlus (splitOnSpace s)

/-- A table of section names with a fourth category. -/
def fourSectionNames : List (Str × Str) :=
  [("docs".toList, "main-docs".toList), ("tuts".toList, "tutorials".toList),
   ("ref".toList, "reference".toList), ("blog".toList, "articles".toList)]

/-- A selection over the four categories of `fourSectionNames`, all active. -/
def fourSection : Section :=
  [("docs".toList, true), ("tuts".toList, true), ("ref".toList, true),
   ("blog".toList, true)]

/-- A result whose slug contains the fragment of the fourth category only. -/
def blogEntry : ResultEntry := { slug := "articles/release".toList, fields := [] }

/-- A result from the reference pages. -/
def refEntry : ResultEntry := { slug := "reference/api".toList, fields := [] }

/-- A selection with the active key `blog`, which `sectionNames` does not have, next to
the active key `docs`. -/
def blogSection : Section :=
  [("docs".toList, true), ("tuts".toList, false), ("ref".toList, false),
   ("blog".toList, true)]

/-- A store without any document. -/
def emptyStore : Store := fun _ => none

/-- An index with no hit for the empty query and one hit for the query `*`. -/
def wildcardIndex : Index := fun q =>
  if q = "*".toList then .ok [{ ref := "main-docs/intro".toList }] else .ok []

/-! ## Facts about `split`, `tokens` and `processQuery` -/

theorem split_ne_nil (s : Str) : split s ≠ [] := by
  cases s with
  | nil => simp [split]
  | cons c cs =>
    rw [split]
    split_ifs
    · simp
    · cases split cs <;> simp

/-- Filtering the pieces of `split` for non-emptiness, as line 37 does, yields the tokens. -/
theorem split_filter_eq_tokens (s : Str) :
    (split s).filter (fun t => decide (t.length > 0)) = tokens s := by
  induction s with
  | nil => simp [split, tokens]
  | cons c cs ih =>
    by_cases hc : isWhitespace c = true
    · simp [split, tokens, hc, ih]
    · cases cs with
      | nil => simp [split, tokens, hc, atBoundary]
      | cons d ds =>
        by_cases hd : isWhitespace d = true
        · have h1 : split (d :: ds) = [] :: split ds := by simp [split, hd]
          rw [h1] at ih
          simp only [List.length_nil, gt_iff_lt, lt_self_iff_false, decide_False,
            Bool.false_eq_true, not_false_eq_true, List.filter_cons_of_neg] at ih
          have h3 : split (c :: d :: ds) = [c] :: split ds := by
            rw [split, h1]; simp [hc]
          have h4 : tokens (c :: d :: ds) = [c] :: tokens (d :: ds) := by
            rw [tokens]; simp [hc, atBoundary, hd]
          rw [h3, h4, ← ih]
          simp
        · obtain ⟨p, ps, hps⟩ : ∃ p ps, split (d :: ds) = (d :: p) :: ps := by
            rw [split]
            simp only [hd, Bool.false_eq_true, if_false]
            cases split ds <;> simp
          rw [hps] at ih
          have ih2 : (d :: p) :: ps.filter (fun t => decide (t.length > 0))
              = tokens (d :: ds) := by
            simpa using ih
          have h3 : split (c :: d :: ds) = (c :: d :: p) :: ps := by
            rw [split, hps]; simp [hc]
          have h4 : tokens (c :: d :: ds)
              = (c :: d :: p) :: ps.filter (fun t => decide (t.length > 0)) := by
            rw [tokens]
            simp only [hc, atBoundary, hd, Bool.false_eq_true, if_false]
            rw [← ih2]
          rw [h3, h4]
          simp

theorem tokens_length_le_split_length (s : Str) : (tokens s).length ≤ (split s).length := by
  rw [← split_filter_eq_tokens]
  exact List.length_filter_le _ _

theorem tokens_ne_nil_imp (s : Str) (h : 2 ≤ (tokens s).length) : s ≠ [] := by
  rintro rfl
  simp [tokens] at h

theorem matchesReserved_eq_false (s : Str) (h : ∀ c ∈ s, isReserved c = false) :
    matchesReserved s = false := by
  simp only [matchesReserved, List.any_eq_false]
  intro c hc
  simp [h c hc]

/-- A string without any white-space character is returned unchanged. -/
theorem processQuery_of_no_whitespace (s : Str) (h : ∀ c ∈ s, isWhitespace c = false) :
    processQuery s = s := by
  have hs : split s = [s] := by
    induction s with
    | nil => simp [split]
    | cons c cs ih =>
      have hc : isWhitespace c = false := h c (by simp)
      have hcs : split cs = [cs] := ih (fun x hx => h x (by simp [hx]))
      rw [split, hcs]
      simp [hc]
  simp [processQuery, hs]

/-! ## Claims on `processQuery` -/

/-- C1: a raw string with at most one non-empty token is not always returned unchanged.
The string `foo ` (one token, trailing space) becomes `+foo`, the string made of one space
(no token) becomes the empty string, and the string ` foo` (leading space) becomes `+foo`:
the guard of line 30 counts the pieces of `split`, empty ones included. -/
theorem processQuery_single_token_with_space :
    (tokens "foo ".toList).length = 1 ∧ processQuery "foo ".toList = "+foo".toList ∧
    (tokens " ".toList).length = 0 ∧ processQuery " ".toList = "".toList ∧
    (tokens " foo".toList).length = 1 ∧ processQuery " foo".toList = "+foo".toList := by
  decide

/-- C2: a raw string with at least two non-empty tokens and no reserved character is
turned into its tokens, in order, each prefixed with `+`, joined by single spaces. -/
theorem processQuery_multi_token (s : Str) (h2 : 2 ≤ (tokens s).length)
    (hr : ∀ c ∈ s, isReserved c = false) :
    processQuery s = join ((tokens s).map (fun t => '+' :: t)) := by
  have hne : s ≠ [] := tokens_ne_nil_imp s h2
  have hlen : ¬ (split s).length < 2 := by
    have := tokens_length_le_split_length s
    omega
  have hm := matchesReserved_eq_false s hr
  have hl : ¬ s.length = 0 := by
    intro h0
    exact hne (List.length_eq_zero.mp h0)
  have hb : (s.length == 0) = false := by simpa using hl
  simp only [processQuery, hm, hb, hlen, decide_False, Bool.or_self, Bool.false_eq_true,
    if_false]
  rw [split_filter_eq_tokens]

theorem processQuery_multi_token_witness :
    2 ≤ (tokens "foo   bar".toList).length ∧
    (∀ c ∈ "foo   bar".toList, isReserved c = false) ∧
    processQuery "setup guide".toList = "+setup +guide".toList ∧
    processQuery "foo   bar".toList = "+foo +bar".toList :=
  ⟨by decide, by decide,
   (processQuery_multi_token "setup guide".toList (by decide) (by decide)).trans (by decide),
   (processQuery_multi_token "foo   bar".toList (by decide) (by decide)).trans (by decide)⟩

/-- C3: a raw string that contains one of the characters `^ ~ + - * :` is returned
unchanged, whatever its number of tokens. -/
theorem processQuery_reserved (s : Str) (h : ∃ c ∈ s, isReserved c = true) :
    processQuery s = s := by
  have hm : matchesReserved s = true := by
    simpa [matchesReserved, List.any_eq_true] using h
  simp [processQuery, hm]

theorem processQuery_reserved_witness :
    (∃ c ∈ "setup guide -draft".toList, isReserved c = true) ∧
    processQuery "setup guide -draft".toList = "setup guide -draft".toList :=
  ⟨⟨'-', by decide, by decide⟩,
   processQuery_reserved "setup guide -draft".toList ⟨'-', by decide, by decide⟩⟩

/-! ## Claims on `searchForQuery` and the two-stage search -/

theorem searchForQuery_of_ok (index : Index) (store : Store) (q : Str) (hits : List Hit)
    (h : index q = .ok hits) :
    searchForQuery index store q
      = hits.map (fun result => mergeEntry result.ref (store result.ref)) := by
  simp [searchForQuery, searchForQueryTry, h]

theorem searchForQuery_of_error (index : Index) (store : Store) (q e : Str)
    (h : index q = .error e) : searchForQuery index store q = [] := by
  simp [searchForQuery, searchForQueryTry, h]

theorem search_of_strict_nil (index : Index) (store : Store) (q : Str)
    (h : searchForQuery index store (processQuery q) = []) :
    search index store q = searchForQuery index store (q ++ ['*']) := by
  simp [search, h]

theorem search_of_strict_ne_nil (index : Index) (store : Store) (q : Str)
    (h : searchForQuery index store (processQuery q) ≠ []) :
    search index store q = searchForQuery index store (processQuery q) := by
  have hl : (searchForQuery index store (processQuery q)).length ≠ 0 := by
    simpa [List.length_eq_zero] using h
  simp [search, hl]

/-- C4: when the search on `processQuery q` gives the empty list, the result of the search
is that of `searchForQuery` on `q` followed by `*`, built from the raw query `q`. -/
theorem search_fallback (index : Index) (store : Store) (q : Str)
    (h : searchForQuery index store (processQuery q) = []) :
    search index store q = searchForQuery index store (q ++ ['*']) :=
  search_of_strict_nil index store q h

theorem search_fallback_witness :
    searchForQuery fallbackIndex exampleStore (processQuery "setup guide".toList) = [] ∧
    search fallbackIndex exampleStore "setup guide".toList
      = [{ slug := "tutorials/setup".toList, fields := [("title".toList, "Setup".toList)] }] ∧
    searchForQuery fallbackIndex exampleStore (processQuery "setup guide".toList ++ ['*'])
      = [] :=
  ⟨by decide,
   (search_fallback fallbackIndex exampleStore "setup guide".toList (by decide)).trans
     (by decide),
   by decide⟩

/-- C5: when the search on `processQuery q` gives a non-empty list, the result of the
search is exactly that list, and it is the same for every index that answers
`processQuery q` in the same way (whatever it answers to the wildcard query); when both
the search on `processQuery q` and the search on `q*` give the empty list, the result is
the empty list. -/
theorem search_strict_or_empty (index : Index) (store : Store) (q : Str) :
    (searchForQuery index store (processQuery q) ≠ [] →
      search index store q = searchForQuery index store (processQuery q) ∧
      ∀ index2 : Index, index2 (processQuery q) = index (processQuery q) →
        search index2 store q = search index store q) ∧
    (searchForQuery index store (processQuery q) = [] →
      searchForQuery index store (q ++ ['*']) = [] → search index store q = []) := by
  refine ⟨fun h => ⟨search_of_strict_ne_nil index store q h, fun index2 h2 => ?_⟩,
    fun h1 h2 => ?_⟩
  · have hs : searchForQuery index2 store (processQuery q)
        = searchForQuery index store (processQuery q) := by
      simp [searchForQuery, searchForQueryTry, h2]
    rw [search_of_strict_ne_nil index store q h,
      search_of_strict_ne_nil index2 store q (by rw [hs]; exact h), hs]
  · rw [search_of_strict_nil index store q h1, h2]

theorem search_strict_or_empty_witness :
    searchForQuery exactIndex exampleStore (processQuery "setup guide".toList) ≠ [] ∧
    search exactIndex exampleStore "setup guide".toList
      = [{ slug := "main-docs/intro".toList,
           fields := [("title".toList, "Introduction".toList)] }] ∧
    searchForQuery emptyIndex exampleStore (processQuery "setup guide".toList) = [] ∧
    searchForQuery emptyIndex exampleStore ("setup guide".toList ++ ['*']) = [] ∧
    search emptyIndex exampleStore "setup guide".toList = [] :=
  ⟨by decide,
   (((search_strict_or_empty exactIndex exampleStore "setup guide".toList).1
      (by decide)).1).trans (by decide),
   by decide, by decide,
   (search_strict_or_empty emptyIndex exampleStore "setup guide".toList).2
     (by decide) (by decide)⟩

/-- C6: when `index.search` throws on a query, `searchForQuery` returns the empty list
(and `searchForQuery` and `search` are total functions into result lists, so no error
reaches the caller); an error on the query `processQuery q` makes the search use the
wildcard query, and errors on both queries give the empty list. -/
theorem search_error_recovered (index : Index) (store : Store) (q : Str) :
    (∀ e, index q = .error e → searchForQuery index store q = []) ∧
    (∀ e, index (processQuery q) = .error e →
      search index store q = searchForQuery index store (q ++ ['*'])) ∧
    (∀ e1 e2, index (processQuery q) = .error e1 → index (q ++ ['*']) = .error e2 →
      search index store q = []) := by
  refine ⟨fun e h => searchForQuery_of_error index store q e h, fun e h => ?_,
    fun e1 e2 h1 h2 => ?_⟩
  · exact search_of_strict_nil index store q (searchForQuery_of_error index store _ e h)
  · rw [search_of_strict_nil index store q (searchForQuery_of_error index store _ e1 h1)]
    exact searchForQuery_of_error index store _ e2 h2

theorem search_error_recovered_witness :
    searchForQuery throwingIndex exampleStore "setup guide".toList = [] ∧
    search strictThrowingIndex exampleStore "setup guide".toList
      = [{ slug := "tutorials/setup".toList, fields := [("title".toList, "Setup".toList)] }] ∧
    search throwingIndex exampleStore "setup guide".toList = [] :=
  ⟨(search_error_recovered throwingIndex exampleStore "setup guide".toList).1
     "QueryParseError".toList rfl,
   ((search_error_recovered strictThrowingIndex exampleStore "setup guide".toList).2.1
     "QueryParseError".toList rfl).trans (by decide),
   (search_error_recovered throwingIndex exampleStore "setup guide".toList).2.2
     "QueryParseError".toList "QueryParseError".toList rfl rfl⟩

/-- C10 (as stated, refuted): the hit `docs/a` gives an entry whose slug is `docs/b`,
the `slug` property of the stored metadata, and not the reference of the hit. -/
theorem searchForQuery_slug_overridden :
    slugIndex "a".toList = .ok [{ ref := "docs/a".toList }] ∧
    (searchForQuery slugIndex slugStore "a".toList).map (fun e => e.slug)
      = ["docs/b".toList] ∧
    (searchForQuery slugIndex slugStore "a".toList).map (fun e => e.slug)
      ≠ ["docs/a".toList] :=
  ⟨rfl, by decide, by decide⟩

/-- C10 (amended): for the hits returned by the index, `searchForQuery` returns one entry
per hit, in the order of the hits; the i-th entry carries the properties of the stored
metadata of the i-th hit's reference, and its slug is the `slug` property of that metadata
when there is one and the reference of the hit otherwise (in particular when the store
has nothing under the reference). -/
theorem searchForQuery_entries (index : Index) (store : Store) (q : Str) (hits : List Hit)
    (h : index q = .ok hits) :
    (searchForQuery index store q).length = hits.length ∧
    ∀ (i : Nat) (hi : i < hits.length),
      ∃ e, (searchForQuery index store q)[i]? = some e ∧
        e.fields = ((store hits[i].ref).getD []).filter (fun kv => kv.1 != slugKey) ∧
        e.slug = (((store hits[i].ref).getD []).lookup slugKey).getD hits[i].ref ∧
        (((store hits[i].ref).getD []).lookup slugKey = none → e.slug = hits[i].ref) := by
  rw [searchForQuery_of_ok index store q hits h]
  refine ⟨by simp, fun i hi => ?_⟩
  refine ⟨mergeEntry hits[i].ref (store hits[i].ref), by simp [hi], ?_⟩
  cases hst : store hits[i].ref with
  | none => simp [mergeEntry]
  | some m =>
    refine ⟨by simp [mergeEntry], by simp [mergeEntry], fun hno => ?_⟩
    simp only [Option.getD_some] at hno
    simp [mergeEntry, hno]

theorem searchForQuery_entries_witness :
    exactIndex "+setup +guide".toList = .ok [{ ref := "main-docs/intro".toList }] ∧
    (searchForQuery exactIndex exampleStore "+setup +guide".toList).length = 1 ∧
    ∃ e, (searchForQuery exactIndex exampleStore "+setup +guide".toList)[0]? = some e ∧
      e.fields = [("title".toList, "Introduction".toList)] ∧
      e.slug = "main-docs/intro".toList := by
  have h := searchForQuery_entries exactIndex exampleStore "+setup +guide".toList
    [{ ref := "main-docs/intro".toList }] rfl
  refine ⟨rfl, h.1, ?_⟩
  obtain ⟨e, he, hf, hs, -⟩ := h.2 0 (by decide)
  exact ⟨e, he, hf.trans (by decide), hs.trans (by decide)⟩

/-! ## Claims on the category filter -/

theorem includes_iff (s t : Str) : includes s t = true ↔ t <:+: s := by
  simp only [includes, List.any_eq_true, List.mem_tails, List.isPrefixOf_iff_prefix]
  rw [List.infix_iff_prefix_suffix]
  constructor
  · rintro ⟨u, hu, hp⟩
    exact ⟨u, hp, hu⟩
  · rintro ⟨u, hp, hu⟩
    exact ⟨u, hu, hp⟩

theorem selectedSectionNames_mkSection (docs tuts ref : Bool) :
    selectedSectionNames sectionNames (selectedSections (mkSection docs tuts ref))
      = (if docs then ["main-docs".toList] else []) ++
        ((if tuts then ["tutorials".toList] else []) ++
         (if ref then ["reference".toList] else [])) := by
  cases docs <;> cases tuts <;> cases ref <;> decide

theorem selectedSections_eq_nil (s : Section) (h : ∀ kv ∈ s, kv.2 = false) :
    selectedSections s = [] := by
  simp only [selectedSections, List.map_eq_nil_iff, List.filter_eq_nil_iff]
  intro kv hkv
  simp [h kv hkv]

/-- When at most three names are selected, `filterResult` accepts every entry whose slug
includes one of them. -/
theorem filterResult_of_mem (names : List Str) (hlen : names.length ≤ 3) (i : ResultEntry)
    (t : Str) (ht : t ∈ names) (hin : includes i.slug t = true) :
    filterResult names i = true := by
  match names, hlen, ht with
  | [a], _, ht =>
    simp only [List.mem_singleton] at ht
    subst ht
    simp [filterResult, nameAt, hin]
  | [a, b], _, ht =>
    simp only [List.mem_cons, List.mem_singleton, List.not_mem_nil, or_false] at ht
    rcases ht with rfl | rfl <;> simp [filterResult, nameAt, hin]
  | [a, b, c], _, ht =>
    simp only [List.mem_cons, List.mem_singleton, List.not_mem_nil, or_false] at ht
    rcases ht with rfl | rfl | rfl <;> simp [filterResult, nameAt, hin]
  | _ :: _ :: _ :: _ :: _, hlen, _ =>
    simp at hlen

/-- C7 (evaluation of the code): with only `docs` active, a tutorials entry whose slug
contains the text `undefined` is kept, although its slug does not contain `main-docs`:
`selectedSectionNames[1]` is `undefined` and `includes` searches for that word. -/
theorem categoryFilter_keeps_undefined :
    categoryFilter (mkSection true false false) [docsEntry, tutsEntry, undefinedEntry]
      = [docsEntry, undefinedEntry] ∧
    includes undefinedEntry.slug "main-docs".toList = false := by
  decide

/-- C8: for every selection over `docs`, `tuts`, `ref`, an entry of the result list whose
slug contains the fragment of an active category is kept by the category filter. -/
theorem categoryFilter_complete (results : List ResultEntry) (docs tuts ref : Bool)
    (e : ResultEntry) (he : e ∈ results)
    (hfrag : (docs = true ∧ "main-docs".toList <:+: e.slug) ∨
      (tuts = true ∧ "tutorials".toList <:+: e.slug) ∨
      (ref = true ∧ "reference".toList <:+: e.slug)) :
    e ∈ categoryFilter (mkSection docs tuts ref) results := by
  have hsel : ((selectedSections (mkSection docs tuts ref)).length == 0) = false := by
    rcases hfrag with ⟨h, -⟩ | ⟨h, -⟩ | ⟨h, -⟩ <;> simp [selectedSections, mkSection, h]
  simp only [categoryFilter, categoryFilterWith, hsel, Bool.false_eq_true, if_false,
    List.mem_filter]
  refine ⟨he, ?_⟩
  have hlen : (selectedSectionNames sectionNames
      (selectedSections (mkSection docs tuts ref))).length ≤ 3 := by
    cases docs <;> cases tuts <;> cases ref <;> decide
  rcases hfrag with ⟨h, hin⟩ | ⟨h, hin⟩ | ⟨h, hin⟩
  · refine filterResult_of_mem _ hlen e "main-docs".toList ?_ ((includes_iff _ _).mpr hin)
    rw [selectedSectionNames_mkSection, h]
    simp
  · refine filterResult_of_mem _ hlen e "tutorials".toList ?_ ((includes_iff _ _).mpr hin)
    rw [selectedSectionNames_mkSection, h]
    simp
  · refine filterResult_of_mem _ hlen e "reference".toList ?_ ((includes_iff _ _).mpr hin)
    rw [selectedSectionNames_mkSection, h]
    simp

theorem categoryFilter_complete_witness :
    docsEntry ∈ [docsEntry, tutsEntry] ∧
    "main-docs".toList <:+: docsEntry.slug ∧
    docsEntry ∈ categoryFilter (mkSection true false false) [docsEntry, tutsEntry] ∧
    categoryFilter (mkSection true false false) [docsEntry, tutsEntry] = [docsEntry] :=
  ⟨by decide, (includes_iff _ _).mp (by decide),
   categoryFilter_complete [docsEntry, tutsEntry] true false false docsEntry (by decide)
     (Or.inl ⟨rfl, (includes_iff _ _).mp (by decide)⟩),
   by decide⟩

/-- C9: when all flags of the selection are false, the category filter returns the result
list itself. -/
theorem categoryFilter_identity (s : Section) (results : List ResultEntry)
    (h : ∀ kv ∈ s, kv.2 = false) : categoryFilter s results = results := by
  simp [categoryFilter, categoryFilterWith, selectedSections_eq_nil s h]

theorem categoryFilter_identity_witness :
    (∀ kv ∈ mkSection false false false, kv.2 = false) ∧
    categoryFilter (mkSection false false false) [tutsEntry, docsEntry, undefinedEntry]
      = [tutsEntry, docsEntry, undefinedEntry] :=
  ⟨by decide,
   categoryFilter_identity (mkSection false false false)
     [tutsEntry, docsEntry, undefinedEntry] (by decide)⟩

/-! ## Idempotence of `processQuery` and reading its output back -/

theorem processQuery_of_plus_mem (s : Str) (h : '+' ∈ s) : processQuery s = s := by
  have hm : matchesReserved s = true := by
    simp only [matchesReserved, List.any_eq_true]
    exact ⟨'+', h, by decide⟩
  simp [processQuery, hm]

theorem plus_mem_join (t : Str) (ts : List Str) :
    '+' ∈ join ((t :: ts).map (fun u => '+' :: u)) := by
  cases ts with
  | nil => simp [join, List.intercalate]
  | cons u us => simp [join, List.intercalate]

/-- The output of `processQuery` is the input itself, or the empty string, or a string
that contains `+`. -/
theorem processQuery_cases (s : Str) :
    processQuery s = s ∨ processQuery s = [] ∨ '+' ∈ processQuery s := by
  by_cases hg : (s.length == 0 || decide ((split s).length < 2) || matchesReserved s) = true
  · left
    simp only [processQuery, hg, if_true]
  · right
    have hp : processQuery s = join ((tokens s).map (fun t => '+' :: t)) := by
      simp only [processQuery, hg, Bool.false_eq_true, if_false]
      rw [split_filter_eq_tokens]
    rw [hp]
    cases htk : tokens s with
    | nil => left; rfl
    | cons t ts => right; exact plus_mem_join t ts

theorem processQuery_idempotent (s : Str) :
    processQuery (processQuery s) = processQuery s := by
  rcases processQuery_cases s with h | h | h
  · rw [h, h]
  · rw [h]; rfl
  · exact processQuery_of_plus_mem _ h

theorem processQuery_of_two_tokens (s : Str) (h2 : 2 ≤ (tokens s).length)
    (hr : ∀ c ∈ s, isReserved c = false) :
    processQuery s = join ((tokens s).map (fun t => '+' :: t)) := by
  have hlen : ¬ (split s).length < 2 := by
    have := tokens_length_le_split_length s
    omega
  have hb : (s.length == 0) = false := by
    have hne := tokens_ne_nil_imp s h2
    cases s with
    | nil => exact absurd rfl hne
    | cons c cs => rfl
  simp only [processQuery, matchesReserved_eq_false s hr, hb, hlen, decide_False,
    Bool.or_self, Bool.false_eq_true, if_false]
  rw [split_filter_eq_tokens]

theorem tokens_cons_whitespace (c : Char) (cs : Str) (hc : isWhitespace c = true) :
    tokens (c :: cs) = tokens cs := by
  rw [tokens]; simp [hc]

theorem tokens_cons_boundary (c : Char) (cs : Str) (hc : isWhitespace c = false)
    (hb : atBoundary cs = true) : tokens (c :: cs) = [c] :: tokens cs := by
  rw [tokens]; simp [hc, hb]

theorem tokens_cons_inner_nil (c : Char) (cs : Str) (hc : isWhitespace c = false)
    (hb : atBoundary cs = false) (htk : tokens cs = []) : tokens (c :: cs) = [[c]] := by
  rw [tokens]; simp [hc, hb, htk]

theorem tokens_cons_inner_cons (c : Char) (cs : Str) (u : Str) (us : List Str)
    (hc : isWhitespace c = false) (hb : atBoundary cs = false)
    (htk : tokens cs = u :: us) : tokens (c :: cs) = (c :: u) :: us := by
  rw [tokens]; simp [hc, hb, htk]

/-- A token contains no white-space character. -/
theorem tokens_no_whitespace (s : Str) :
    ∀ t ∈ tokens s, ∀ c ∈ t, isWhitespace c = false := by
  induction s with
  | nil => simp [tokens]
  | cons c cs ih =>
    intro t ht x hx
    cases hc : isWhitespace c with
    | true =>
      rw [tokens_cons_whitespace c cs hc] at ht
      exact ih t ht x hx
    | false =>
      cases hb : atBoundary cs with
      | true =>
        rw [tokens_cons_boundary c cs hc hb, List.mem_cons] at ht
        rcases ht with ht | ht
        · rw [ht, List.mem_singleton] at hx
          rw [hx]; exact hc
        · exact ih t ht x hx
      | false =>
        cases htk : tokens cs with
        | nil =>
          rw [tokens_cons_inner_nil c cs hc hb htk, List.mem_singleton] at ht
          rw [ht, List.mem_singleton] at hx
          rw [hx]; exact hc
        | cons u us =>
          rw [tokens_cons_inner_cons c cs u us hc hb htk, List.mem_cons] at ht
          rcases ht with ht | ht
          · rw [ht, List.mem_cons] at hx
            rcases hx with hx | hx
            · rw [hx]; exact hc
            · exact ih u (by rw [htk]; exact List.mem_cons_self _ _) x hx
          · exact ih t (by rw [htk]; exact List.mem_cons_of_mem _ ht) x hx

theorem dropAllPlus_map_plus (ts : List Str) :
    dropAllPlus (ts.map (fun t => '+' :: t)) = some ts := by
  induction ts with
  | nil => rfl
  | cons t ts ih =>
    simp only [List.map_cons, dropAllPlus, dropPlus, if_true, ih]

theorem splitOnSpace_join_plus (ts : List Str) (hne : ts ≠ [])
    (hsp : ∀ t ∈ ts, ' ' ∉ t) :
    splitOnSpace (join (ts.map (fun t => '+' :: t))) = ts.map (fun t => '+' :: t) := by
  unfold splitOnSpace join
  apply List.splitOn_intercalate
  · intro l hl
    simp only [List.mem_map] at hl
    obtain ⟨t, ht, rfl⟩ := hl
    simp only [List.mem_cons, not_or]
    exact ⟨by decide, hsp t ht⟩
  · simpa using hne

/-! ## Claims on idempotence and on reading the output back -/

/-- C13: for every raw string that is empty, or has fewer than two non-empty tokens, or
contains a reserved character, applying `processQuery` twice gives the same string as
applying it once. -/
theorem processQuery_idempotent_pass_through (s : Str)
    (_h : s = [] ∨ (tokens s).length < 2 ∨ ∃ c ∈ s, isReserved c = true) :
    processQuery (processQuery s) = processQuery s :=
  processQuery_idempotent s

theorem processQuery_idempotent_pass_through_witness :
    ("foo ".toList = [] ∨ (tokens "foo ".toList).length < 2 ∨
      ∃ c ∈ "foo ".toList, isReserved c = true) ∧
    processQuery (processQuery "foo ".toList) = processQuery "foo ".toList ∧
    processQuery (processQuery "a -b".toList) = processQuery "a -b".toList :=
  ⟨Or.inr (Or.inl (by decide)),
   processQuery_idempotent_pass_through "foo ".toList (Or.inr (Or.inl (by decide))),
   processQuery_idempotent_pass_through "a -b".toList
     (Or.inr (Or.inr ⟨'-', by decide, by decide⟩))⟩

/-- C14: for every raw string with at least two non-empty tokens and no reserved
character, cutting `processQuery s` at the single spaces gives one piece per token of
`s`, in order, each piece being the token with a leading `+`; dropping that `+` from
every piece succeeds and gives back exactly the tokens of `s`. -/
theorem parseBack_processQuery (s : Str) (h2 : 2 ≤ (tokens s).length)
    (hr : ∀ c ∈ s, isReserved c = false) :
    splitOnSpace (processQuery s) = (tokens s).map (fun t => '+' :: t) ∧
    parseBack (processQuery s) = some (tokens s) := by
  have hne : tokens s ≠ [] := by
    intro h0
    rw [h0] at h2
    simp at h2
  have hsp : ∀ t ∈ tokens s, ' ' ∉ t := by
    intro t ht hmem
    have := tokens_no_whitespace s t ht ' ' hmem
    exact absurd this (by decide)
  have hcut := splitOnSpace_join_plus (tokens s) hne hsp
  rw [processQuery_of_two_tokens s h2 hr]
  refine ⟨hcut, ?_⟩
  rw [parseBack, hcut]
  exact dropAllPlus_map_plus (tokens s)

theorem parseBack_processQuery_witness :
    2 ≤ (tokens "foo bar".toList).length ∧
    (∀ c ∈ "foo bar".toList, isReserved c = false) ∧
    splitOnSpace (processQuery "foo bar".toList) = ["+foo".toList, "+bar".toList] ∧
    parseBack (processQuery "foo bar".toList) = some ["foo".toList, "bar".toList] ∧
    parseBack "foo bar".toList = none :=
  ⟨by decide, by decide,
   (parseBack_processQuery "foo bar".toList (by decide) (by decide)).1.trans (by decide),
   (parseBack_processQuery "foo bar".toList (by decide) (by decide)).2.trans (by decide),
   by decide⟩

/-- C18: when `processQuery` changes its input, the output is the empty string or
contains `+`, and it is a fixed point of `processQuery`; hence `processQuery` is
idempotent on all strings. -/
theorem processQuery_transformed_fixed_point (s : Str) :
    (processQuery s ≠ s →
      (processQuery s = [] ∨ '+' ∈ processQuery s) ∧
      processQuery (processQuery s) = processQuery s) ∧
    processQuery (processQuery s) = processQuery s := by
  refine ⟨fun hne => ⟨?_, processQuery_idempotent s⟩, processQuery_idempotent s⟩
  rcases processQuery_cases s with h | h | h
  · exact absurd h hne
  · exact Or.inl h
  · exact Or.inr h

theorem processQuery_transformed_fixed_point_witness :
    processQuery "foo bar".toList ≠ "foo bar".toList ∧
    '+' ∈ processQuery "foo bar".toList ∧
    processQuery " ".toList ≠ " ".toList ∧ processQuery " ".toList = [] ∧
    processQuery (processQuery "foo bar".toList) = processQuery "foo bar".toList ∧
    processQuery (processQuery " ".toList) = processQuery " ".toList :=
  ⟨by decide, by decide, by decide, by decide,
   ((processQuery_transformed_fixed_point "foo bar".toList).1 (by decide)).2,
   (processQuery_transformed_fixed_point " ".toList).2⟩

/-! ## Further facts about the category filter -/

theorem indexOf_nonneg_iff (xs : List Str) (x : Str) : indexOf xs x ≥ 0 ↔ x ∈ xs := by
  unfold indexOf
  by_cases h : x ∈ xs
  · simp [h]
  · simp [h]

theorem mem_selectedSections (s : Section) (k : Str) :
    k ∈ selectedSections s ↔ (k, true) ∈ s := by
  simp only [selectedSections, List.mem_map, List.mem_filter]
  constructor
  · rintro ⟨⟨a, b⟩, ⟨hm, hb⟩, rfl⟩
    simp only at hb
    subst hb
    exact hm
  · intro h
    exact ⟨(k, true), ⟨h, rfl⟩, rfl⟩

theorem mem_selectedSectionNames (names : List (Str × Str)) (selected : List Str) (t : Str) :
    t ∈ selectedSectionNames names selected ↔ ∃ k, (k, t) ∈ names ∧ k ∈ selected := by
  simp only [selectedSectionNames, List.mem_map, List.mem_filter, decide_eq_true_eq,
    indexOf_nonneg_iff]
  constructor
  · rintro ⟨⟨a, b⟩, ⟨hm, hk⟩, rfl⟩
    exact ⟨a, hm, hk⟩
  · rintro ⟨k, hm, hk⟩
    exact ⟨(k, t), ⟨hm, hk⟩, rfl⟩

theorem filterResult_iff (names : List Str) (i : ResultEntry) :
    filterResult names i = true ↔
      nameAt names 0 <:+: i.slug ∨ nameAt names 1 <:+: i.slug ∨ nameAt names 2 <:+: i.slug := by
  rw [← includes_iff, ← includes_iff, ← includes_iff]
  unfold filterResult
  cases includes i.slug (nameAt names 0) <;> cases includes i.slug (nameAt names 1) <;>
    cases includes i.slug (nameAt names 2) <;> simp

/-- The function `filterResult` accepts every entry whose slug includes one of the first
three selected names. -/
theorem filterResult_of_mem_take (names : List Str) (i : ResultEntry) (t : Str)
    (ht : t ∈ names.take 3) (hin : t <:+: i.slug) : filterResult names i = true := by
  rw [filterResult_iff]
  match names, ht with
  | [a], ht =>
    simp only [List.take, List.mem_singleton] at ht
    subst ht
    exact Or.inl hin
  | [a, b], ht =>
    simp only [List.take, List.mem_cons, List.mem_singleton, List.not_mem_nil,
      or_false] at ht
    rcases ht with rfl | rfl
    · exact Or.inl hin
    · exact Or.inr (Or.inl hin)
  | a :: b :: c :: rest, ht =>
    simp only [List.take, List.mem_cons, List.mem_singleton, List.not_mem_nil,
      or_false] at ht
    rcases ht with rfl | rfl | rfl
    · exact Or.inl hin
    · exact Or.inr (Or.inl hin)
    · exact Or.inr (Or.inr hin)

theorem categoryFilterWith_sublist (names : List (Str × Str)) (s : Section)
    (results : List ResultEntry) : (categoryFilterWith names s results).Sublist results := by
  unfold categoryFilterWith
  split_ifs
  · exact List.Sublist.refl _
  · exact List.filter_sublist _

theorem mem_categoryFilterWith_of_take (names : List (Str × Str)) (s : Section)
    (results : List ResultEntry) (e : ResultEntry) (t : Str) (he : e ∈ results)
    (ht : t ∈ (selectedSectionNames names (selectedSections s)).take 3)
    (hin : t <:+: e.slug) : e ∈ categoryFilterWith names s results := by
  unfold categoryFilterWith
  split_ifs
  · exact he
  · exact List.mem_filter.mpr ⟨he, filterResult_of_mem_take _ e t ht hin⟩

theorem nameAt_mem_or (names : List Str) (k : Nat) :
    nameAt names k ∈ names ∨ nameAt names k = undefinedText := by
  unfold nameAt
  by_cases hk : k < names.length
  · left
    rw [List.getD_eq_getElem _ _ hk]
    exact List.getElem_mem _
  · right
    exact List.getD_eq_default _ _ (by omega)

theorem selectedSectionNames_sectionNames_mem (selected : List Str) (t : Str)
    (h : t ∈ selectedSectionNames sectionNames selected) :
    t = "main-docs".toList ∨ t = "tutorials".toList ∨ t = "reference".toList := by
  obtain ⟨k, hk, -⟩ := (mem_selectedSectionNames _ _ _).mp h
  simp only [sectionNames, List.mem_cons, Prod.mk.injEq, List.not_mem_nil, or_false] at hk
  rcases hk with ⟨-, h1⟩ | ⟨-, h1⟩ | ⟨-, h1⟩
  · exact Or.inl h1
  · exact Or.inr (Or.inl h1)
  · exact Or.inr (Or.inr h1)

/-! ## Claims on the generality, order and error behaviour of the category filter -/

/-- C11 (as stated, refuted): for the taxonomy `fourSectionNames` of four categories, all
of them active in the selection, the entry whose slug contains the fragment `articles` of
the fourth category is dropped by the category filter: the effect consults its own
constant `sectionNames` of three categories and no other taxonomy. -/
theorem categoryFilter_ignores_fourth_category :
    fourSectionNames.length > 3 ∧
    (∀ kv ∈ fourSectionNames, (kv.1, true) ∈ fourSection) ∧
    ("blog".toList, "articles".toList) ∈ fourSectionNames ∧
    includes blogEntry.slug "articles".toList = true ∧
    blogEntry ∈ [docsEntry, blogEntry, refEntry] ∧
    blogEntry ∉ categoryFilter fourSection [docsEntry, blogEntry, refEntry] ∧
    categoryFilter fourSection [docsEntry, blogEntry, refEntry] = [docsEntry, refEntry] := by
  decide

/-- C11 (amended): the category filter is tied to the three categories of `sectionNames`.
For every selection, of any number of keys, with an active key: an entry of the result
list whose slug contains the fragment of an active category of `sectionNames` is kept,
and an entry whose slug contains none of the fragments `main-docs`, `tutorials`,
`reference` (and not the text `undefined`) is dropped, whatever other categories the
selection names. -/
theorem categoryFilter_three_categories (s : Section) (results : List ResultEntry)
    (e : ResultEntry) (he : e ∈ results) (hact : ∃ k, (k, true) ∈ s) :
    ((∃ key frag, (key, true) ∈ s ∧ (key, frag) ∈ sectionNames ∧ frag <:+: e.slug) →
      e ∈ categoryFilter s results) ∧
    ((¬ "main-docs".toList <:+: e.slug ∧ ¬ "tutorials".toList <:+: e.slug ∧
        ¬ "reference".toList <:+: e.slug ∧ ¬ "undefined".toList <:+: e.slug) →
      e ∉ categoryFilter s results) := by
  have hlen : (selectedSectionNames sectionNames (selectedSections s)).length ≤ 3 := by
    simp only [selectedSectionNames, List.length_map]
    exact le_trans (List.length_filter_le _ _) (by decide)
  refine ⟨?_, ?_⟩
  · rintro ⟨key, frag, hkey, hfrag, hin⟩
    apply mem_categoryFilterWith_of_take sectionNames s results e frag he _ hin
    rw [List.take_of_length_le hlen]
    exact (mem_selectedSectionNames _ _ _).mpr
      ⟨key, hfrag, (mem_selectedSections s key).mpr hkey⟩
  · rintro ⟨hd, ht, hr, hu⟩ hmem
    obtain ⟨k, hk⟩ := hact
    have hsel : ((selectedSections s).length == 0) = false := by
      have hks := (mem_selectedSections s k).mpr hk
      cases hss : selectedSections s with
      | nil => rw [hss] at hks; simp at hks
      | cons x xs => rfl
    simp only [categoryFilter, categoryFilterWith, hsel, Bool.false_eq_true, if_false,
      List.mem_filter, filterResult_iff] at hmem
    have hnone : ∀ n, ¬ nameAt (selectedSectionNames sectionNames (selectedSections s)) n
        <:+: e.slug := by
      intro n hn
      rcases nameAt_mem_or (selectedSectionNames sectionNames (selectedSections s)) n
        with h | h
      · rcases selectedSectionNames_sectionNames_mem _ _ h with h1 | h1 | h1
        · rw [h1] at hn; exact hd hn
        · rw [h1] at hn; exact ht hn
        · rw [h1] at hn; exact hr hn
      · rw [h] at hn; exact hu hn
    rcases hmem.2 with h | h | h
    · exact hnone 0 h
    · exact hnone 1 h
    · exact hnone 2 h

theorem categoryFilter_three_categories_witness :
    refEntry ∈ [docsEntry, blogEntry, refEntry] ∧
    (∃ k, (k, true) ∈ fourSection) ∧
    refEntry ∈ categoryFilter fourSection [docsEntry, blogEntry, refEntry] ∧
    blogEntry ∉ categoryFilter fourSection [docsEntry, blogEntry, refEntry] :=
  ⟨by decide, ⟨"blog".toList, by decide⟩,
   (categoryFilter_three_categories fourSection [docsEntry, blogEntry, refEntry] refEntry
     (by decide) ⟨"blog".toList, by decide⟩).1
     ⟨"ref".toList, "reference".toList, by decide, by decide,
      (includes_iff _ _).mp (by decide)⟩,
   (categoryFilter_three_categories fourSection [docsEntry, blogEntry, refEntry] blogEntry
     (by decide) ⟨"blog".toList, by decide⟩).2
     ⟨fun h => absurd ((includes_iff _ _).mpr h) (by decide),
      fun h => absurd ((includes_iff _ _).mpr h) (by decide),
      fun h => absurd ((includes_iff _ _).mpr h) (by decide),
      fun h => absurd ((includes_iff _ _).mpr h) (by decide)⟩⟩

/-- C12: for every result list and every selection, the output of the category filter is
a sub-list of the input in the same relative order, and no entry occurs more often in it
than in the input. -/
theorem categoryFilter_sublist (s : Section) (results : List ResultEntry) :
    (categoryFilter s results).Sublist results ∧
    ∀ e, (categoryFilter s results).count e ≤ results.count e := by
  have h := categoryFilterWith_sublist sectionNames s results
  exact ⟨h, fun e => h.count_le e⟩

/-- C15 (as stated, refuted): with the active key `blog`, which `sectionNames` does not
have, the category filter returns a result list. -/
theorem categoryFilter_absent_key_returns :
    "blog".toList ∉ sectionNames.map Prod.fst ∧
    ("blog".toList, true) ∈ blogSection ∧
    categoryFilter blogSection [docsEntry, tutsEntry] = [docsEntry] := by
  decide

/-- C15 (amended): when the selection has an active key that the table of section names
does not have, the category filter does not fail: it returns a sub-list of the result
list, the absent key selects no fragment, and every entry whose slug contains the
fragment of an active key of the table is kept. -/
theorem categoryFilter_absent_key (s : Section) (results : List ResultEntry) (k : Str)
    (_hk : (k, true) ∈ s) (habs : k ∉ sectionNames.map Prod.fst) :
    selectedSectionNames sectionNames (selectedSections s)
      = selectedSectionNames sectionNames ((selectedSections s).filter (fun x => x != k)) ∧
    (categoryFilter s results).Sublist results ∧
    ∀ e ∈ results, ∀ key frag, (key, true) ∈ s → (key, frag) ∈ sectionNames →
      frag <:+: e.slug → e ∈ categoryFilter s results := by
  refine ⟨?_, categoryFilterWith_sublist sectionNames s results, ?_⟩
  · unfold selectedSectionNames
    congr 1
    apply List.filter_congr
    intro kv hkv
    have hne : kv.1 ≠ k := by
      intro h
      exact habs (h ▸ List.mem_map_of_mem Prod.fst hkv)
    have hiff : indexOf (selectedSections s) kv.1 ≥ 0 ↔
        indexOf ((selectedSections s).filter (fun x => x != k)) kv.1 ≥ 0 := by
      rw [indexOf_nonneg_iff, indexOf_nonneg_iff, List.mem_filter]
      constructor
      · intro h
        exact ⟨h, by simpa using hne⟩
      · intro h
        exact h.1
    exact decide_eq_decide.mpr hiff
  · intro e he key frag hkey hfrag hin
    apply mem_categoryFilterWith_of_take sectionNames s results e frag he _ hin
    have hmem : frag ∈ selectedSectionNames sectionNames (selectedSections s) :=
      (mem_selectedSectionNames _ _ _).mpr ⟨key, hfrag, (mem_selectedSections s key).mpr hkey⟩
    have hlen : (selectedSectionNames sectionNames (selectedSections s)).length ≤ 3 := by
      simp only [selectedSectionNames, List.length_map]
      exact le_trans (List.length_filter_le _ _) (by decide)
    rw [List.take_of_length_le hlen]
    exact hmem

theorem categoryFilter_absent_key_witness :
    ("blog".toList, true) ∈ blogSection ∧
    "blog".toList ∉ sectionNames.map Prod.fst ∧
    selectedSectionNames sectionNames (selectedSections blogSection)
      = ["main-docs".toList] ∧
    docsEntry ∈ categoryFilter blogSection [docsEntry, tutsEntry] := by
  have h := categoryFilter_absent_key blogSection [docsEntry, tutsEntry] "blog".toList
    (by decide) (by decide)
  exact ⟨by decide, by decide, h.1.trans (by decide),
    h.2.2 docsEntry (by decide) "docs".toList "main-docs".toList (by decide) (by decide)
      ((includes_iff _ _).mp (by decide))⟩

/-- C19: for every selection over `docs`, `tuts`, `ref` with at least one active flag, an
entry of the result list is kept by the category filter exactly when its slug contains
the fragment of an active category, or fewer than three flags are active and its slug
contains the text `undefined`. -/
theorem categoryFilter_kept_iff (results : List ResultEntry) (docs tuts ref : Bool)
    (hact : docs = true ∨ tuts = true ∨ ref = true) (e : ResultEntry) :
    e ∈ categoryFilter (mkSection docs tuts ref) results ↔
      e ∈ results ∧
      ((docs = true ∧ "main-docs".toList <:+: e.slug) ∨
       (tuts = true ∧ "tutorials".toList <:+: e.slug) ∨
       (ref = true ∧ "reference".toList <:+: e.slug) ∨
       (¬ (docs = true ∧ tuts = true ∧ ref = true) ∧ "undefined".toList <:+: e.slug)) := by
  have hsel : ((selectedSections (mkSection docs tuts ref)).length == 0) = false := by
    rcases hact with h | h | h <;> simp [selectedSections, mkSection, h]
  simp only [categoryFilter, categoryFilterWith, hsel, Bool.false_eq_true, if_false,
    List.mem_filter, filterResult_iff, selectedSectionNames_mkSection]
  apply and_congr_right
  intro _
  cases docs <;> cases tuts <;> cases ref <;>
    simp [nameAt, undefinedText] at hact ⊢

theorem categoryFilter_kept_iff_witness :
    ((true : Bool) = true ∨ (false : Bool) = true ∨ (false : Bool) = true) ∧
    undefinedEntry ∈ categoryFilter (mkSection true false false)
      [docsEntry, tutsEntry, undefinedEntry] ∧
    tutsEntry ∉ categoryFilter (mkSection true false false)
      [docsEntry, tutsEntry, undefinedEntry] :=
  ⟨Or.inl rfl,
   (categoryFilter_kept_iff [docsEntry, tutsEntry, undefinedEntry] true false false
     (Or.inl rfl) undefinedEntry).mpr
     ⟨by decide, Or.inr (Or.inr (Or.inr ⟨by decide, (includes_iff _ _).mp (by decide)⟩))⟩,
   by decide⟩

/-! ## Claims on missing references and on the empty query -/

/-- C16: when the index returns hits of which some have no entry in the store, the `try`
block of `searchForQuery` completes without an error: `searchForQuery` returns one entry
per hit, and the entry of a hit without stored metadata consists of its slug alone. -/
theorem searchForQuery_missing_reference (index : Index) (store : Store) (q : Str)
    (hits : List Hit) (h : index q = .ok hits) (_hmiss : ∃ x ∈ hits, store x.ref = none) :
    searchForQueryTry index store q = .ok (searchForQuery index store q) ∧
    (searchForQuery index store q).length = hits.length ∧
    ∀ (i : Nat) (hi : i < hits.length), store hits[i].ref = none →
      (searchForQuery index store q)[i]? = some { slug := hits[i].ref, fields := [] } := by
  rw [searchForQuery_of_ok index store q hits h]
  refine ⟨by simp [searchForQueryTry, h], by simp, fun i hi hnone => ?_⟩
  simp [hi, hnone, mergeEntry]

theorem searchForQuery_missing_reference_witness :
    exactIndex "+setup +guide".toList = .ok [{ ref := "main-docs/intro".toList }] ∧
    (∃ x ∈ [({ ref := "main-docs/intro".toList } : Hit)], emptyStore x.ref = none) ∧
    (searchForQuery exactIndex emptyStore "+setup +guide".toList)[0]?
      = some { slug := "main-docs/intro".toList, fields := [] } ∧
    search exactIndex emptyStore "setup guide".toList
      = [{ slug := "main-docs/intro".toList, fields := [] }] :=
  ⟨rfl, ⟨_, List.mem_singleton.mpr rfl, rfl⟩,
   (searchForQuery_missing_reference exactIndex emptyStore "+setup +guide".toList
     [{ ref := "main-docs/intro".toList }] rfl ⟨_, List.mem_singleton.mpr rfl, rfl⟩).2.2
     0 (by decide) rfl,
   by decide⟩

/-- C17 (as stated, refuted): an index that has no hit for the empty query but one for
the query `*` makes the search of the empty raw query return that hit, since the empty
first result triggers the retry with `*`. -/
theorem search_empty_query_wildcard :
    wildcardIndex [] = .ok [] ∧
    search wildcardIndex exampleStore []
      = [{ slug := "main-docs/intro".toList,
           fields := [("title".toList, "Introduction".toList)] }] ∧
    search wildcardIndex exampleStore [] ≠ [] :=
  ⟨rfl, by decide, by decide⟩

/-- C17 (amended): for every index that returns an empty list for the empty query, the
search of the empty raw query is the result of `searchForQuery` on the query `*`; it is
the empty list when the index has no hit for `*` either. -/
theorem search_empty_query (index : Index) (store : Store) (h : index [] = .ok []) :
    search index store [] = searchForQuery index store ['*'] ∧
    (searchForQuery index store ['*'] = [] → search index store [] = []) := by
  have hp : processQuery [] = [] := rfl
  have hs : searchForQuery index store (processQuery []) = [] := by
    rw [hp, searchForQuery_of_ok index store [] [] h]
    rfl
  have := search_of_strict_nil index store [] hs
  exact ⟨this, fun h2 => this.trans h2⟩

theorem search_empty_query_witness :
    emptyIndex [] = .ok [] ∧
    wildcardIndex [] = .ok [] ∧
    search emptyIndex exampleStore [] = [] ∧
    search wildcardIndex exampleStore [] = searchForQuery wildcardIndex exampleStore ['*'] :=
  ⟨rfl, rfl, (search_empty_query emptyIndex exampleStore rfl).2 (by decide),
   (search_empty_query wildcardIndex exampleStore rfl).1⟩

end SearchModal
